import Mathlib

/-!
Verification of the probabilistic-data-structures repository:
a Bloom filter with SHA-256 based salted hashing and a password-uniqueness
checker (`check_password_uniqueness.py`), plus the log-source IP extractor
and HyperLogLog-style cardinality estimator of `performance_comparison.py`.

The Python code is shallowly embedded: machine-level hashing is carried out
on `Nat` with explicit reduction modulo 2^32, Python lists become Lean
lists, the mutable Bloom-filter object becomes explicit state passing, and
the insertion-ordered Python `dict` becomes an association list with
update-in-place semantics.
-/

set_option maxRecDepth 10000

/-- Python runtime values that flow through the checker: strings, integers
and `None` (the demo passes `None` in the password list). -/
inductive PyVal where
  | str (s : List Char)
  | int (n : Int)
  | none
  deriving DecidableEq, Repr

/-- Decimal representation of a Python `int`, as produced by `str(n)`. -/
def intRepr (n : Int) : List Char :=
  if n < 0 then '-' :: Nat.toDigits 10 n.natAbs else Nat.toDigits 10 n.toNat

/-- `str(v)` for the embedded Python values: strings print as themselves
(inside an f-string no quotes are added), integers in decimal, `None` as
the word `None`. -/
def pyStr : PyVal → List Char
  | PyVal.str s => s
  | PyVal.int n => intRepr n
  | PyVal.none => "None".toList

/-- UTF-8 encoding of one character (`str.encode('utf-8')` in Python). -/
def utf8Char (c : Char) : List Nat :=
  let n := c.toNat
  if n < 128 then [n]
  else if n < 2048 then [192 ||| (n >>> 6), 128 ||| (n &&& 63)]
  else if n < 65536 then
    [224 ||| (n >>> 12), 128 ||| ((n >>> 6) &&& 63), 128 ||| (n &&& 63)]
  else
    [240 ||| (n >>> 18), 128 ||| ((n >>> 12) &&& 63),
     128 ||| ((n >>> 6) &&& 63), 128 ||| (n &&& 63)]

/-- UTF-8 encoding of a string as a byte list. -/
def utf8Encode (s : List Char) : List Nat :=
  s.foldr (fun c acc => utf8Char c ++ acc) []

/-! ### SHA-256 (the `hashlib.sha256` digest used by `BloomFilter._hashes`)

32-bit words are represented as `Nat` reduced modulo `2^32`.
-/

/-- Truncate to a 32-bit word. -/
def w32 (n : Nat) : Nat := n % 4294967296

/-- Rotate a 32-bit word right by `k` positions. -/
def rotr32 (k x : Nat) : Nat := w32 ((x >>> k) ||| (x <<< (32 - k)))

/-- The compression-round function named Sigma0 in the SHA-256 standard. -/
def sigB0 (x : Nat) : Nat := rotr32 2 x ^^^ rotr32 13 x ^^^ rotr32 22 x

/-- The compression-round function named Sigma1 in the SHA-256 standard. -/
def sigB1 (x : Nat) : Nat := rotr32 6 x ^^^ rotr32 11 x ^^^ rotr32 25 x

/-- The schedule function named sigma0 in the SHA-256 standard. -/
def sigS0 (x : Nat) : Nat := rotr32 7 x ^^^ rotr32 18 x ^^^ (x >>> 3)

/-- The schedule function named sigma1 in the SHA-256 standard. -/
def sigS1 (x : Nat) : Nat := rotr32 17 x ^^^ rotr32 19 x ^^^ (x >>> 10)

/-- The SHA-256 round constants (fractional parts of cube roots of the
first 64 primes), written in decimal. -/
def K256 : List Nat :=
  [1116352408, 1899447441, 3049323471, 3921009573, 961987163,
   1508970993, 2453635748, 2870763221, 3624381080, 310598401,
   607225278, 1426881987, 1925078388, 2162078206, 2614888103,
   3248222580, 3835390401, 4022224774, 264347078, 604807628,
   770255983, 1249150122, 1555081692, 1996064986, 2554220882,
   2821834349, 2952996808, 3210313671, 3336571891, 3584528711,
   113926993, 338241895, 666307205, 773529912, 1294757372,
   1396182291, 1695183700, 1986661051, 2177026350, 2456956037,
   2730485921, 2820302411, 3259730800, 3345764771, 3516065817,
   3600352804, 4094571909, 275423344, 430227734, 506948616,
   659060556, 883997877, 958139571, 1322822218, 1537002063,
   1747873779, 1955562222, 2024104815, 2227730452, 2361852424,
   2428436474, 2756734187, 3204031479, 3329325298]

/-- The SHA-256 initial hash state (fractional parts of square roots of
the first 8 primes), in decimal. -/
def H256 : List Nat :=
  [1779033703, 3144134277, 1013904242, 2773480762, 1359893119,
   2600822924, 528734635, 1541459225]

/-- `k` bytes of `n`, most significant first. -/
def beBytes (k n : Nat) : List Nat :=
  ((List.range k).reverse).map (fun i => (n >>> (8 * i)) % 256)

/-- SHA-256 padding: append `0x80`, zeros up to 56 mod 64, then the
bit length as 8 big-endian bytes. -/
def padMsg (msg : List Nat) : List Nat :=
  let L := msg.length
  let k := (120 - (L + 1) % 64) % 64
  msg ++ [128] ++ List.replicate k 0 ++ beBytes 8 (8 * L)

/-- The 16 big-endian 32-bit words of one 64-byte block. -/
def wordsOfBlock (b : List Nat) : List Nat :=
  (List.range 16).map (fun i =>
    ((b.getD (4 * i) 0) <<< 24) + ((b.getD (4 * i + 1) 0) <<< 16) +
    ((b.getD (4 * i + 2) 0) <<< 8) + b.getD (4 * i + 3) 0)

/-- Extend the 16 block words to the 64-entry message schedule. -/
def extendW (ws : List Nat) : List Nat :=
  (List.range 48).foldl (fun w _ =>
    w ++ [w32 (sigS1 (w.getD (w.length - 2) 0) + w.getD (w.length - 7) 0 +
               sigS0 (w.getD (w.length - 15) 0) + w.getD (w.length - 16) 0)]) ws

/-- One SHA-256 compression round on the 8-word working state. -/
def sha256Round (st : List Nat) (kw : Nat × Nat) : List Nat :=
  match st with
  | [a, b, c, d, e, f, g, h] =>
    let ch := (e &&& f) ^^^ ((4294967295 - e) &&& g)
    let t1 := w32 (h + sigB1 e + ch + kw.1 + kw.2)
    let maj := (a &&& b) ^^^ (a &&& c) ^^^ (b &&& c)
    let t2 := w32 (sigB0 a + maj)
    [w32 (t1 + t2), a, b, c, w32 (d + t1), e, f, g]
  | other => other

/-- Compress one 64-byte block into the running hash state. -/
def compressBlock (h : List Nat) (block : List Nat) : List Nat :=
  let w := extendW (wordsOfBlock block)
  let fin := (List.zip K256 w).foldl sha256Round h
  List.zipWith (fun x y => w32 (x + y)) h fin

/-- SHA-256 of a byte string, as the list of 8 final 32-bit words. -/
def sha256Words (msg : List Nat) : List Nat :=
  let p := padMsg msg
  (List.range (p.length / 64)).foldl
    (fun h i => compressBlock h ((p.drop (64 * i)).take 64)) H256

/-- `int(hashlib.sha256(msg).hexdigest(), 16)`: the 256-bit digest read as
a big-endian integer. -/
def sha256Int (msg : List Nat) : Nat :=
  (sha256Words msg).foldl (fun a w => a * 4294967296 + w) 0

/-! ### BloomFilter (`check_password_uniqueness.py`)

The mutable Python object becomes a record, `add` returns the updated
record.  Python's `%` on integers (sign of the divisor) is `Int.fmod`;
list indexing counts negative indices from the end.  An out-of-range index
raises `IndexError` in Python; the embedding is only used, and the
theorems only quantify, over well-formed states (`BloomFilter.WF`), where
every computed position is in range.
-/

/-- The Bloom filter state: `size`, `num_hashes` and the bit array
(`self.bits`, a list of booleans). -/
structure BloomFilter where
  size : Int
  num_hashes : Int
  bits : List Bool
  deriving DecidableEq, Repr

/-- `BloomFilter.__init__`: records the parameters and allocates
`[False] * size` (the empty list when `size <= 0`).  The source performs
no validation and has no failure path. -/
def BloomFilter.init (size num_hashes : Int) : BloomFilter :=
  ⟨size, num_hashes, List.replicate size.toNat false⟩

/-- Python list index resolution: negative indices count from the end. -/
def pyIdx (len : Nat) (pos : Int) : Nat :=
  if pos < 0 then len - (-pos).toNat else pos.toNat

/-- `self.bits[pos] = v`. -/
def pySet (bits : List Bool) (pos : Int) (v : Bool) : List Bool :=
  bits.set (pyIdx bits.length pos) v

/-- `self.bits[pos]` as a read. -/
def pyGet (bits : List Bool) (pos : Int) : Bool :=
  bits.getD (pyIdx bits.length pos) false

/-- `BloomFilter._hashes`: for `i in range(num_hashes)`, hash the salted
string `f"{item}-{i}"` with SHA-256, read the hex digest as an integer and
reduce it modulo `size` (Python `%`, i.e. `Int.fmod`). -/
def BloomFilter._hashes (bf : BloomFilter) (item : PyVal) : List Int :=
  (List.range bf.num_hashes.toNat).map (fun i =>
    Int.fmod (sha256Int (utf8Encode (pyStr item ++ '-' :: Nat.toDigits 10 i))) bf.size)

/-- `BloomFilter.add`: set the bit at each hash position to `True`. -/
def BloomFilter.add (bf : BloomFilter) (item : PyVal) : BloomFilter :=
  { bf with bits := (bf._hashes item).foldl (fun bs p => pySet bs p true) bf.bits }

/-- `BloomFilter.contains`: `False` as soon as one hash position is unset,
`True` when all are set. -/
def BloomFilter.contains (bf : BloomFilter) (item : PyVal) : Bool :=
  (bf._hashes item).all (fun p => pyGet bf.bits p)

/-- Well-formed (reachable) filter states: positive bit-array size and a
bit list of exactly that length.  `BloomFilter.init` with a positive size
establishes this and `add` preserves it. -/
def BloomFilter.WF (bf : BloomFilter) : Prop :=
  0 < bf.size ∧ bf.bits.length = bf.size.toNat

instance (bf : BloomFilter) : Decidable bf.WF := by
  unfold BloomFilter.WF; infer_instance

/-! ### The password-uniqueness checker -/

/-- The status string for invalid candidates. -/
def stInvalid : String := "invalid password"

/-- The status string for candidates the filter already contains. -/
def stUsed : String := "already used"

/-- The status string for fresh candidates. -/
def stUnique : String := "unique"

/-- ASCII whitespace as recognised by Python's `str.strip()`
(ASCII fragment; the inputs of interest are ASCII). -/
def pyIsSpace (c : Char) : Bool :=
  c = ' ' || c = '\t' || c = '\n' || c = '\r' || c = '\x0b' || c = '\x0c'

/-- Python `str.strip()`: drop leading and trailing whitespace. -/
def pyStrip (s : List Char) : List Char :=
  (((s.dropWhile pyIsSpace).reverse).dropWhile pyIsSpace).reverse

/-- The guard `not isinstance(pwd, str) or pwd.strip() == ""`. -/
def isInvalid : PyVal → Bool
  | PyVal.str s => (pyStrip s).isEmpty
  | _ => true

/-- Python `results[k] = v` on an insertion-ordered `dict`: update the
entry of an existing key in place (keeping its position and key object),
otherwise append a new entry. -/
def dictSet : List (PyVal × String) → PyVal → String → List (PyVal × String)
  | [], k, v => [(k, v)]
  | q :: d, k, v => if q.1 = k then (q.1, v) :: d else q :: dictSet d k v

/-- `results[k]` as a lookup (`None` when the key is absent). -/
def dictLookup : List (PyVal × String) → PyVal → Option String
  | [], _ => Option.none
  | q :: d, k => if q.1 = k then some q.2 else dictLookup d k

/-- The loop of `check_password_uniqueness`, with the filter threaded as
explicit state and `results` as accumulator. -/
def checkLoop : BloomFilter → List PyVal → List (PyVal × String) →
    List (PyVal × String) × BloomFilter
  | bf, [], res => (res, bf)
  | bf, pwd :: rest, res =>
    if isInvalid pwd then checkLoop bf rest (dictSet res pwd stInvalid)
    else if bf.contains pwd then checkLoop bf rest (dictSet res pwd stUsed)
    else checkLoop (bf.add pwd) rest (dictSet res pwd stUnique)

/-- `check_password_uniqueness(bloom_filter, new_passwords)`: the returned
dict together with the final filter state. -/
def check_password_uniqueness (bf : BloomFilter) (pwds : List PyVal) :
    List (PyVal × String) × BloomFilter :=
  checkLoop bf pwds []

/-- The trace of status assignments of the checker, one per input item in
input order (the dict is the fold of `dictSet` over this trace). -/
def checkTrace : BloomFilter → List PyVal → List (PyVal × String)
  | _, [] => []
  | bf, pwd :: rest =>
    if isInvalid pwd then (pwd, stInvalid) :: checkTrace bf rest
    else if bf.contains pwd then (pwd, stUsed) :: checkTrace bf rest
    else (pwd, stUnique) :: checkTrace (bf.add pwd) rest

/-- The filter state after the checker has processed the given items. -/
def runFilter : BloomFilter → List PyVal → BloomFilter
  | bf, [] => bf
  | bf, pwd :: rest =>
    if isInvalid pwd then runFilter bf rest
    else if bf.contains pwd then runFilter bf rest
    else runFilter (bf.add pwd) rest

/-! ### Bit-array lemmas -/

/-- Writing the `foldl` of `BloomFilter.add` as a named operation. -/
def setTrueAll (bs : List Bool) (ps : List Int) : List Bool :=
  ps.foldl (fun b p => pySet b p true) bs

lemma setTrueAll_cons (bs : List Bool) (p : Int) (ps : List Int) :
    setTrueAll bs (p :: ps) = setTrueAll (pySet bs p true) ps := rfl

lemma length_pySet (bs : List Bool) (p : Int) (v : Bool) :
    (pySet bs p v).length = bs.length := by
  simp [pySet]

lemma getD_set_true (bs : List Bool) (i j : Nat) (h : bs.getD i false = true) :
    (bs.set j true).getD i false = true := by
  induction bs generalizing i j with
  | nil => simp at h
  | cons b t ih =>
    cases j with
    | zero =>
      cases i with
      | zero => simp [List.set]
      | succ i => simpa [List.set] using h
    | succ j =>
      cases i with
      | zero => simpa [List.set] using h
      | succ i => simpa [List.set] using ih i j (by simpa using h)

lemma getD_set_self (bs : List Bool) (j : Nat) (hj : j < bs.length) :
    (bs.set j true).getD j false = true := by
  induction bs generalizing j with
  | nil => simp at hj
  | cons b t ih =>
    cases j with
    | zero => simp [List.set]
    | succ j => simpa [List.set] using ih j (by simpa using hj)

lemma set_of_getD_true (bs : List Bool) (i : Nat) (h : bs.getD i false = true) :
    bs.set i true = bs := by
  induction bs generalizing i with
  | nil => rfl
  | cons b t ih =>
    cases i with
    | zero =>
      simp only [List.getD_cons_zero] at h
      simp [List.set, h]
    | succ i => simp [List.set, ih i (by simpa using h)]

lemma length_setTrueAll (ps : List Int) (bs : List Bool) :
    (setTrueAll bs ps).length = bs.length := by
  induction ps generalizing bs with
  | nil => rfl
  | cons p ps ih => rw [setTrueAll_cons, ih, length_pySet]

lemma getD_setTrueAll_mono (ps : List Int) (bs : List Bool) (i : Nat)
    (h : bs.getD i false = true) : (setTrueAll bs ps).getD i false = true := by
  induction ps generalizing bs with
  | nil => exact h
  | cons p ps ih =>
    rw [setTrueAll_cons]
    exact ih _ (getD_set_true _ _ _ h)

lemma pyGet_setTrueAll_mono (ps : List Int) (bs : List Bool) (p : Int)
    (h : pyGet bs p = true) : pyGet (setTrueAll bs ps) p = true := by
  unfold pyGet at *
  rw [length_setTrueAll]
  exact getD_setTrueAll_mono _ _ _ h

lemma pyGet_setTrueAll_mem (ps : List Int) (bs : List Bool) (p : Int)
    (hp : p ∈ ps) (hlt : pyIdx bs.length p < bs.length) :
    pyGet (setTrueAll bs ps) p = true := by
  induction ps generalizing bs with
  | nil => cases hp
  | cons q ps ih =>
    rw [setTrueAll_cons]
    rcases List.mem_cons.mp hp with h | h
    · subst h
      apply pyGet_setTrueAll_mono
      unfold pyGet pySet
      rw [List.length_set]
      exact getD_set_self _ _ hlt
    · exact ih _ h (by rw [length_pySet]; exact hlt)

/-! ### Bloom-filter lemmas -/

lemma hashes_add (bf : BloomFilter) (x y : PyVal) :
    (bf.add y)._hashes x = bf._hashes x := rfl

lemma bits_add (bf : BloomFilter) (x : PyVal) :
    (bf.add x).bits = setTrueAll bf.bits (bf._hashes x) := rfl

lemma WF_add (bf : BloomFilter) (x : PyVal) (hwf : bf.WF) : (bf.add x).WF := by
  obtain ⟨h1, h2⟩ := hwf
  exact ⟨h1, by rw [bits_add, length_setTrueAll]; exact h2⟩

lemma hashes_mem_bound (bf : BloomFilter) (hpos : 0 < bf.size) (x : PyVal) (p : Int)
    (hp : p ∈ bf._hashes x) : 0 ≤ p ∧ p < bf.size := by
  unfold BloomFilter._hashes at hp
  obtain ⟨i, _, rfl⟩ := List.mem_map.mp hp
  exact ⟨Int.fmod_nonneg' _ hpos, Int.fmod_lt_of_pos _ hpos⟩

lemma pyIdx_lt (bf : BloomFilter) (hwf : bf.WF) (p : Int) (h0 : 0 ≤ p)
    (h1 : p < bf.size) : pyIdx bf.bits.length p < bf.bits.length := by
  obtain ⟨hs, hl⟩ := hwf
  unfold pyIdx
  rw [if_neg (by omega), hl]
  omega

lemma contains_add_self (bf : BloomFilter) (hwf : bf.WF) (x : PyVal) :
    (bf.add x).contains x = true := by
  unfold BloomFilter.contains
  rw [hashes_add, bits_add, List.all_eq_true]
  intro p hp
  obtain ⟨h0, h1⟩ := hashes_mem_bound bf hwf.1 x p hp
  exact pyGet_setTrueAll_mem _ _ _ hp (pyIdx_lt bf hwf p h0 h1)

lemma contains_mono (bf : BloomFilter) (x y : PyVal) (h : bf.contains x = true) :
    (bf.add y).contains x = true := by
  unfold BloomFilter.contains at *
  rw [hashes_add, bits_add, List.all_eq_true]
  rw [List.all_eq_true] at h
  intro p hp
  exact pyGet_setTrueAll_mono _ _ _ (h p hp)

lemma contains_foldl_add (ys : List PyVal) (bf : BloomFilter) (x : PyVal)
    (h : bf.contains x = true) : (ys.foldl BloomFilter.add bf).contains x = true := by
  induction ys generalizing bf with
  | nil => exact h
  | cons y ys ih => exact ih _ (contains_mono _ _ _ h)

/-! ### Claim theorems about the Bloom filter -/

/-- C1: after `add(x)`, `contains(x)` is true and stays true under any
further sequence of `add` calls, and `add` only ever turns bits on, never
off (no false negatives, monotone bit array). -/
theorem bloom_no_false_negatives (bf : BloomFilter) (hwf : bf.WF) (x : PyVal)
    (ys : List PyVal) :
    (ys.foldl BloomFilter.add (bf.add x)).contains x = true ∧
    ∀ (y : PyVal) (i : Nat), bf.bits.getD i false = true →
      (bf.add y).bits.getD i false = true := by
  constructor
  · exact contains_foldl_add ys _ x (contains_add_self bf hwf x)
  · intro y i h
    rw [bits_add]
    exact getD_setTrueAll_mono _ _ _ h

/-- Witness for C1 at a concrete filter and item. -/
theorem bloom_no_false_negatives_witness :
    (BloomFilter.init 1000 3).WF ∧
    (([] : List PyVal).foldl BloomFilter.add
        ((BloomFilter.init 1000 3).add (PyVal.str ['a']))).contains
      (PyVal.str ['a']) = true :=
  ⟨by decide,
   (bloom_no_false_negatives (BloomFilter.init 1000 3) (by decide)
     (PyVal.str ['a']) []).1⟩

lemma pySet_true_of_pyGet_true (bs : List Bool) (p : Int)
    (h : pyGet bs p = true) : pySet bs p true = bs := by
  unfold pyGet at h
  unfold pySet
  exact set_of_getD_true _ _ h

lemma setTrueAll_noop (ps : List Int) (bs : List Bool)
    (h : ∀ p ∈ ps, pySet bs p true = bs) : setTrueAll bs ps = bs := by
  induction ps with
  | nil => rfl
  | cons q ps ih =>
    rw [setTrueAll_cons, h q (List.mem_cons_self q ps)]
    exact ih (fun p hp => h p (List.mem_cons_of_mem q hp))

/-- C6: `add` is idempotent on the bit state — adding the same item again
changes nothing. -/
theorem add_idempotent (bf : BloomFilter) (hwf : bf.WF) (x : PyVal) :
    (bf.add x).add x = bf.add x := by
  have hbits : (bf.add x).bits = setTrueAll bf.bits (bf._hashes x) := bits_add bf x
  have key : setTrueAll (setTrueAll bf.bits (bf._hashes x)) (bf._hashes x) =
      setTrueAll bf.bits (bf._hashes x) := by
    apply setTrueAll_noop
    intro p hp
    apply pySet_true_of_pyGet_true
    obtain ⟨h0, h1⟩ := hashes_mem_bound bf hwf.1 x p hp
    apply pyGet_setTrueAll_mem _ _ _ hp
    exact pyIdx_lt bf hwf p h0 h1
  show BloomFilter.mk (bf.add x).size (bf.add x).num_hashes
      (setTrueAll (bf.add x).bits ((bf.add x)._hashes x)) = bf.add x
  rw [hashes_add, hbits, key]
  rfl

/-- Witness for C6 at a concrete filter and item. -/
theorem add_idempotent_witness :
    (BloomFilter.init 5 2).WF ∧
    ((BloomFilter.init 5 2).add (PyVal.str ['a'])).add (PyVal.str ['a']) =
      (BloomFilter.init 5 2).add (PyVal.str ['a']) :=
  ⟨by decide, add_idempotent (BloomFilter.init 5 2) (by decide) (PyVal.str ['a'])⟩

/-- C9: with `num_hashes = 0` (which the constructor accepts) there are no
hash positions, so `contains` is vacuously true for every item and `add`
leaves the bit array unchanged. -/
theorem zero_hashes_contains_true (size : Int) (x : PyVal) :
    (BloomFilter.init size 0).contains x = true ∧
    (BloomFilter.init size 0).add x = BloomFilter.init size 0 :=
  ⟨rfl, rfl⟩

/-- C10: the hash positions depend only on the item's string
representation, so two items with equal `str()` are indistinguishable to
the filter: adding one makes `contains` true of the other. -/
theorem hashes_depend_on_str (bf : BloomFilter) (x y : PyVal)
    (h : pyStr x = pyStr y) :
    bf._hashes x = bf._hashes y ∧ (bf.WF → (bf.add x).contains y = true) := by
  have hh : bf._hashes x = bf._hashes y := by
    unfold BloomFilter._hashes
    rw [h]
  refine ⟨hh, fun hwf => ?_⟩
  have : (bf.add x).contains y = (bf.add x).contains x := by
    unfold BloomFilter.contains
    rw [hashes_add, hashes_add, hh]
  rw [this]
  exact contains_add_self bf hwf x

/-- Witness for C10: the integer `123` and the string `"123"` hit the same
bits. -/
theorem hashes_depend_on_str_witness :
    pyStr (PyVal.int 123) = pyStr (PyVal.str ['1', '2', '3']) ∧
    (BloomFilter.init 10 1).WF ∧
    ((BloomFilter.init 10 1).add (PyVal.int 123)).contains
      (PyVal.str ['1', '2', '3']) = true :=
  ⟨by decide, by decide,
   (hashes_depend_on_str (BloomFilter.init 10 1) (PyVal.int 123)
       (PyVal.str ['1', '2', '3']) (by decide)).2 (by decide)⟩

/-- Counterexample to C2: `BloomFilter(0, 0)` is accepted — the
constructor has no validation and no failure path, and the resulting
object even answers `contains` — where the claim demands an
`InvalidParameter` failure for `size <= 0`. -/
theorem init_accepts_nonpositive_counterexample :
    BloomFilter.init 0 0 = ⟨0, 0, []⟩ ∧
    (BloomFilter.init 0 0).contains (PyVal.str []) = true :=
  ⟨rfl, rfl⟩

/-! ### Checker lemmas -/

lemma checkTrace_cons_invalid (bf : BloomFilter) (p : PyVal) (rest : List PyVal)
    (h : isInvalid p = true) :
    checkTrace bf (p :: rest) = (p, stInvalid) :: checkTrace bf rest := by
  simp [checkTrace, h]

lemma checkTrace_cons_used (bf : BloomFilter) (p : PyVal) (rest : List PyVal)
    (h1 : isInvalid p = false) (h2 : bf.contains p = true) :
    checkTrace bf (p :: rest) = (p, stUsed) :: checkTrace bf rest := by
  simp [checkTrace, h1, h2]

lemma checkTrace_cons_unique (bf : BloomFilter) (p : PyVal) (rest : List PyVal)
    (h1 : isInvalid p = false) (h2 : bf.contains p = false) :
    checkTrace bf (p :: rest) = (p, stUnique) :: checkTrace (bf.add p) rest := by
  simp [checkTrace, h1, h2]

lemma checkLoop_eq (bf : BloomFilter) (pwds : List PyVal)
    (res : List (PyVal × String)) :
    checkLoop bf pwds res =
      ((checkTrace bf pwds).foldl (fun d kv => dictSet d kv.1 kv.2) res,
       runFilter bf pwds) := by
  induction pwds generalizing bf res with
  | nil => rfl
  | cons p rest ih =>
    by_cases h1 : isInvalid p = true
    · simp [checkLoop, checkTrace, runFilter, h1, ih]
    · by_cases h2 : bf.contains p = true
      · simp [checkLoop, checkTrace, runFilter, h1, h2, ih]
      · simp [checkLoop, checkTrace, runFilter, h1, h2, ih]

lemma checkTrace_append (bf : BloomFilter) (l₁ l₂ : List PyVal) :
    checkTrace bf (l₁ ++ l₂) =
      checkTrace bf l₁ ++ checkTrace (runFilter bf l₁) l₂ := by
  induction l₁ generalizing bf with
  | nil => rfl
  | cons p rest ih =>
    by_cases h1 : isInvalid p = true
    · simp [checkTrace, runFilter, h1, ih]
    · by_cases h2 : bf.contains p = true
      · simp [checkTrace, runFilter, h1, h2, ih]
      · simp [checkTrace, runFilter, h1, h2, ih]

lemma checkTrace_length (bf : BloomFilter) (l : List PyVal) :
    (checkTrace bf l).length = l.length := by
  induction l generalizing bf with
  | nil => rfl
  | cons p rest ih =>
    by_cases h1 : isInvalid p = true
    · simp [checkTrace, h1, ih]
    · by_cases h2 : bf.contains p = true
      · simp [checkTrace, h1, h2, ih]
      · simp [checkTrace, h1, h2, ih]

lemma runFilter_WF (bf : BloomFilter) (l : List PyVal) (hwf : bf.WF) :
    (runFilter bf l).WF := by
  induction l generalizing bf with
  | nil => exact hwf
  | cons p rest ih =>
    by_cases h1 : isInvalid p = true
    · simpa [runFilter, h1] using ih bf hwf
    · by_cases h2 : bf.contains p = true
      · simpa [runFilter, h1, h2] using ih bf hwf
      · simpa [runFilter, h1, h2] using ih (bf.add p) (WF_add bf p hwf)

lemma runFilter_contains_mono (bf : BloomFilter) (l : List PyVal) (x : PyVal)
    (h : bf.contains x = true) : (runFilter bf l).contains x = true := by
  induction l generalizing bf with
  | nil => exact h
  | cons p rest ih =>
    by_cases h1 : isInvalid p = true
    · simpa [runFilter, h1] using ih bf h
    · by_cases h2 : bf.contains p = true
      · simpa [runFilter, h1, h2] using ih bf h
      · simpa [runFilter, h1, h2] using ih (bf.add p) (contains_mono bf x p h)

/-! ### The spec-side classification rule (for C4) -/

lemma pyStrip_nil_iff (s : List Char) :
    pyStrip s = [] ↔ ∀ c ∈ s, pyIsSpace c = true := by
  unfold pyStrip
  rw [List.reverse_eq_nil_iff, List.dropWhile_eq_nil_iff]
  constructor
  · intro h c hc
    have hs : c ∈ s.takeWhile pyIsSpace ++ s.dropWhile pyIsSpace := by
      rw [List.takeWhile_append_dropWhile]
      exact hc
    rcases List.mem_append.mp hs with h1 | h1
    · exact List.mem_takeWhile_imp h1
    · exact h c (List.mem_reverse.mpr h1)
  · intro h c hc
    exact h c ((List.dropWhile_sublist pyIsSpace).subset (List.mem_reverse.mp hc))

lemma isInvalid_str_iff (s : List Char) :
    isInvalid (PyVal.str s) = true ↔ ∀ c ∈ s, pyIsSpace c = true := by
  unfold isInvalid
  rw [List.isEmpty_iff]
  exact pyStrip_nil_iff s

/-- The classification rule as the spec words it: a non-string or a
string all of whose characters are whitespace is `invalid`; otherwise the
item is `already used` exactly when the filter currently contains it, and
`unique` (with the filter updated) otherwise. -/
def specTrace : BloomFilter → List PyVal → List (PyVal × String)
  | _, [] => []
  | bf, p :: rest =>
    match p with
    | PyVal.str s =>
      if ∀ c ∈ s, pyIsSpace c = true then
        (PyVal.str s, stInvalid) :: specTrace bf rest
      else if bf.contains (PyVal.str s) then
        (PyVal.str s, stUsed) :: specTrace bf rest
      else
        (PyVal.str s, stUnique) :: specTrace (bf.add (PyVal.str s)) rest
    | q => (q, stInvalid) :: specTrace bf rest

/-- C4: processed in input order, each candidate is classified `invalid`
exactly when it is a non-string or empty/whitespace-only, otherwise
`already used` exactly when the filter contains it at that point,
otherwise `unique` with the filter updated — and the returned dict is the
fold of those assignments. -/
theorem checker_classification (bf : BloomFilter) (pwds : List PyVal) :
    checkTrace bf pwds = specTrace bf pwds ∧
    (check_password_uniqueness bf pwds).1 =
      (checkTrace bf pwds).foldl (fun d kv => dictSet d kv.1 kv.2) [] := by
  constructor
  · induction pwds generalizing bf with
    | nil => rfl
    | cons p rest ih =>
      cases p with
      | str s =>
        by_cases h : ∀ c ∈ s, pyIsSpace c = true
        · have hi : isInvalid (PyVal.str s) = true := (isInvalid_str_iff s).mpr h
          rw [checkTrace_cons_invalid _ _ _ hi]
          simp only [specTrace]
          rw [if_pos h, ih]
        · have hi : isInvalid (PyVal.str s) = false := by
            cases hh : isInvalid (PyVal.str s)
            · rfl
            · exact absurd ((isInvalid_str_iff s).mp hh) h
          by_cases h2 : bf.contains (PyVal.str s) = true
          · rw [checkTrace_cons_used _ _ _ hi h2]
            simp only [specTrace]
            rw [if_neg h, if_pos h2, ih]
          · replace h2 : bf.contains (PyVal.str s) = false := by
              cases hh : bf.contains (PyVal.str s)
              · rfl
              · exact absurd hh h2
            rw [checkTrace_cons_unique _ _ _ hi h2]
            simp only [specTrace]
            rw [if_neg h, if_neg (by simp [h2]), ih]
      | int n => simp [checkTrace, specTrace, isInvalid, ih]
      | none => simp [checkTrace, specTrace, isInvalid, ih]
  · exact congrArg Prod.fst (checkLoop_eq bf pwds [])

/-- C5: the checker mutates the supplied filter exactly by adding, in
order, the items its trace classifies `unique`; invalid and already-used
items leave the state untouched. -/
theorem checker_frame (bf : BloomFilter) (pwds : List PyVal) :
    (check_password_uniqueness bf pwds).2 =
      (((checkTrace bf pwds).filter (fun kv => kv.2 == stUnique)).map
        Prod.fst).foldl BloomFilter.add bf := by
  rw [show (check_password_uniqueness bf pwds).2 = runFilter bf pwds from
    congrArg Prod.snd (checkLoop_eq bf pwds [])]
  have e1 : (stInvalid == stUnique) = false := by decide
  have e2 : (stUsed == stUnique) = false := by decide
  have e3 : (stUnique == stUnique) = true := by decide
  induction pwds generalizing bf with
  | nil => rfl
  | cons p rest ih =>
    by_cases h1 : isInvalid p = true
    · simpa [runFilter, checkTrace, h1, List.filter_cons, e1] using ih bf
    · by_cases h2 : bf.contains p = true
      · simpa [runFilter, checkTrace, h1, h2, List.filter_cons, e2] using ih bf
      · simpa [runFilter, checkTrace, h1, h2, List.filter_cons, e3] using
          ih (bf.add p)

/-! ### Dict lemmas and duplicate handling (for C3) -/

lemma dictLookup_dictSet_self (d : List (PyVal × String)) (k : PyVal)
    (v : String) : dictLookup (dictSet d k v) k = some v := by
  induction d with
  | nil => simp [dictSet, dictLookup]
  | cons q d ih =>
    by_cases h : q.1 = k
    · simp [dictSet, dictLookup, h]
    · simp [dictSet, dictLookup, h, ih]

lemma dictLookup_dictSet_ne (d : List (PyVal × String)) (k k' : PyVal)
    (v : String) (h : k' ≠ k) :
    dictLookup (dictSet d k' v) k = dictLookup d k := by
  induction d with
  | nil => simp [dictSet, dictLookup, h]
  | cons q d ih =>
    by_cases h2 : q.1 = k'
    · have h3 : ¬ q.1 = k := fun hh => h (h2 ▸ hh)
      simp [dictSet, dictLookup, h2, h3, h]
    · simp [dictSet, dictLookup, h2, ih]

lemma dictLookup_foldl_const (tr : List (PyVal × String))
    (d : List (PyVal × String)) (k : PyVal) (v : String)
    (hd : dictLookup d k = some v)
    (hB : ∀ q ∈ tr, q.1 = k → q.2 = v) :
    dictLookup (tr.foldl (fun d kv => dictSet d kv.1 kv.2) d) k = some v := by
  induction tr generalizing d with
  | nil => exact hd
  | cons q tr ih =>
    rw [List.foldl_cons]
    apply ih
    · by_cases h : q.1 = k
      · have hv := hB q (List.mem_cons_self q tr) h
        rw [h, hv]
        exact dictLookup_dictSet_self d k v
      · rw [dictLookup_dictSet_ne d k q.1 q.2 h]
        exact hd
    · intro q' hq' h'
      exact hB q' (List.mem_cons_of_mem q hq') h'

lemma trace_used_of_contains (l : List PyVal) (bf : BloomFilter) (x : PyVal)
    (hval : isInvalid x = false) (hc : bf.contains x = true) :
    ∀ q ∈ checkTrace bf l, q.1 = x → q.2 = stUsed := by
  induction l generalizing bf with
  | nil => intro q hq; cases hq
  | cons p rest ih =>
    intro q hq hk
    by_cases h1 : isInvalid p = true
    · rw [checkTrace_cons_invalid bf p rest h1] at hq
      rcases List.mem_cons.mp hq with rfl | hq'
      · replace hk : p = x := hk
        rw [hk] at h1
        rw [h1] at hval
        cases hval
      · exact ih bf hc q hq' hk
    · replace h1 : isInvalid p = false := by
        cases hh : isInvalid p
        · rfl
        · exact absurd hh h1
      by_cases h2 : bf.contains p = true
      · rw [checkTrace_cons_used bf p rest h1 h2] at hq
        rcases List.mem_cons.mp hq with rfl | hq'
        · rfl
        · exact ih bf hc q hq' hk
      · replace h2 : bf.contains p = false := by
          cases hh : bf.contains p
          · rfl
          · exact absurd hh h2
        rw [checkTrace_cons_unique bf p rest h1 h2] at hq
        rcases List.mem_cons.mp hq with rfl | hq'
        · replace hk : p = x := hk
          rw [hk, hc] at h2
          cases h2
        · exact ih (bf.add p) (contains_mono bf x p hc) q hq' hk

/-- Counterexample to C3: with the same valid string twice in the input,
the returned dict (being keyed by the item) holds a single entry for it,
with the later status — the first occurrence's `unique` entry does not
survive in the result. -/
theorem checker_duplicate_counterexample :
    (check_password_uniqueness (BloomFilter.init 10 1)
        [PyVal.str ['a'], PyVal.str ['a']]).1 =
      [(PyVal.str ['a'], stUsed)] ∧
    ¬ ((PyVal.str ['a'], stUnique) ∈
        (check_password_uniqueness (BloomFilter.init 10 1)
          [PyVal.str ['a'], PyVal.str ['a']]).1) := by
  decide

/-- C3 amended: when a valid candidate string occurs twice (with the
filter not containing it when the first occurrence is reached), the
checker processes the first occurrence as `unique` (adding it) and the
second as `already used`; the returned dict, keyed by item, retains a
single entry for it whose status is `already used` (the later status
overwrites the earlier one). -/
theorem checker_duplicate_statuses (bf : BloomFilter) (hwf : bf.WF)
    (s : List Char) (xs₁ xs₂ xs₃ : List PyVal)
    (hval : isInvalid (PyVal.str s) = false)
    (hnc : (runFilter bf xs₁).contains (PyVal.str s) = false) :
    (checkTrace bf
        (xs₁ ++ PyVal.str s :: (xs₂ ++ PyVal.str s :: xs₃)))[xs₁.length]? =
      some (PyVal.str s, stUnique) ∧
    (checkTrace bf
        (xs₁ ++ PyVal.str s :: (xs₂ ++
          PyVal.str s :: xs₃)))[xs₁.length + 1 + xs₂.length]? =
      some (PyVal.str s, stUsed) ∧
    dictLookup (check_password_uniqueness bf
        (xs₁ ++ PyVal.str s :: (xs₂ ++ PyVal.str s :: xs₃))).1 (PyVal.str s) =
      some stUsed := by
  have hwf₁ : (runFilter bf xs₁).WF := runFilter_WF bf xs₁ hwf
  have hc₂ : (runFilter ((runFilter bf xs₁).add (PyVal.str s)) xs₂).contains
      (PyVal.str s) = true :=
    runFilter_contains_mono _ xs₂ _ (contains_add_self _ hwf₁ _)
  have e : checkTrace bf (xs₁ ++ PyVal.str s :: (xs₂ ++ PyVal.str s :: xs₃)) =
      checkTrace bf xs₁ ++ ((PyVal.str s, stUnique) ::
        (checkTrace ((runFilter bf xs₁).add (PyVal.str s)) xs₂ ++
          ((PyVal.str s, stUsed) ::
            checkTrace (runFilter ((runFilter bf xs₁).add (PyVal.str s)) xs₂)
              xs₃))) := by
    rw [checkTrace_append bf xs₁,
        checkTrace_cons_unique _ _ _ hval hnc,
        checkTrace_append,
        checkTrace_cons_used _ _ _ hval hc₂]
  have hlen₁ : (checkTrace bf xs₁).length = xs₁.length :=
    checkTrace_length bf xs₁
  have hlen₂ :
      (checkTrace ((runFilter bf xs₁).add (PyVal.str s)) xs₂).length =
        xs₂.length :=
    checkTrace_length _ xs₂
  refine ⟨?_, ?_, ?_⟩
  · rw [e, List.getElem?_append_right (by rw [hlen₁])]
    simp [hlen₁]
  · rw [e, List.getElem?_append_right (by rw [hlen₁]; omega)]
    have hidx : xs₁.length + 1 + xs₂.length - (checkTrace bf xs₁).length =
        xs₂.length + 1 := by
      rw [hlen₁]
      omega
    rw [hidx, List.getElem?_cons_succ,
        List.getElem?_append_right (by rw [hlen₂])]
    simp [hlen₂]
  · rw [show (check_password_uniqueness bf
        (xs₁ ++ PyVal.str s :: (xs₂ ++ PyVal.str s :: xs₃))).1 =
        (checkTrace bf (xs₁ ++ PyVal.str s :: (xs₂ ++
          PyVal.str s :: xs₃))).foldl (fun d kv => dictSet d kv.1 kv.2) [] from
      congrArg Prod.fst (checkLoop_eq bf _ [])]
    rw [e]
    rw [show checkTrace bf xs₁ ++ ((PyVal.str s, stUnique) ::
        (checkTrace ((runFilter bf xs₁).add (PyVal.str s)) xs₂ ++
          ((PyVal.str s, stUsed) ::
            checkTrace (runFilter ((runFilter bf xs₁).add (PyVal.str s)) xs₂)
              xs₃))) =
        (checkTrace bf xs₁ ++ (PyVal.str s, stUnique) ::
          checkTrace ((runFilter bf xs₁).add (PyVal.str s)) xs₂) ++
        ((PyVal.str s, stUsed) ::
          checkTrace (runFilter ((runFilter bf xs₁).add (PyVal.str s)) xs₂)
            xs₃) from by simp]
    rw [List.foldl_append, List.foldl_cons]
    apply dictLookup_foldl_const
    · exact dictLookup_dictSet_self _ _ _
    · exact trace_used_of_contains xs₃ _ _ hval hc₂

/-- Witness for the amended C3 at a concrete filter and input. -/
theorem checker_duplicate_statuses_witness :
    (BloomFilter.init 10 1).WF ∧
    isInvalid (PyVal.str ['a']) = false ∧
    (runFilter (BloomFilter.init 10 1) []).contains (PyVal.str ['a']) =
      false ∧
    dictLookup (check_password_uniqueness (BloomFilter.init 10 1)
        [PyVal.str ['a'], PyVal.str ['a']]).1 (PyVal.str ['a']) =
      some stUsed :=
  ⟨by decide, by decide, by decide,
   (checker_duplicate_statuses (BloomFilter.init 10 1) (by decide) ['a']
     [] [] [] (by decide) (by decide)).2.2⟩

/-- C2 amended: the constructor never fails; it accepts any integer
`size` and `num_hashes` (including non-positive ones) and just records
them next to a bit array of `max size 0` `False`s; no `InvalidParameter`
error exists anywhere in the module. -/
theorem init_total_state (size num_hashes : Int) :
    (BloomFilter.init size num_hashes).size = size ∧
    (BloomFilter.init size num_hashes).num_hashes = num_hashes ∧
    (BloomFilter.init size num_hashes).bits.length = size.toNat ∧
    ∀ b ∈ (BloomFilter.init size num_hashes).bits, b = false := by
  refine ⟨rfl, rfl, by simp [BloomFilter.init], ?_⟩
  intro b hb
  exact List.eq_of_mem_replicate hb

/-! ### The log-source IP extractor (`performance_comparison.py`)

`load_ips_from_log` scans a text log line by line and yields the first
match of the regex `\b(?:[0-9]{1,3}\.){3}[0-9]{1,3}\b` in each line.  For
this particular pattern the backtracking search is deterministic: a group
`[0-9]{1,3}\.` can only consume a full digit run of length 1..3 followed
by a dot, and the trailing `[0-9]{1,3}\b` a full digit run of length 1..3
followed by a non-word character or the end.  Word characters follow the
ASCII fragment of `\w` (letters, digits, underscore).
-/

/-- A regex word character (`\w`, ASCII fragment). -/
def isWordChar (c : Char) : Bool := c.isAlphanum || c = '_'

/-- Length of the leading run of digits. -/
def digitRun (l : List Char) : Nat := (l.takeWhile Char.isDigit).length

/-- Match one `[0-9]{1,3}\.` group at the front, returning the remainder. -/
def groupStep (l : List Char) : Option (List Char) :=
  let d := digitRun l
  if 1 ≤ d ∧ d ≤ 3 ∧ (l.drop d).head? = some '.' then some (l.drop (d + 1))
  else Option.none

/-- Whether the character after position `d` (if any) is a non-word
character, i.e. a `\b` boundary follows the digits there. -/
def noWordAfter (l : List Char) (d : Nat) : Bool :=
  match (l.drop d).head? with
  | Option.none => true
  | some c => !(isWordChar c)

/-- Match the final `[0-9]{1,3}\b` at the front, returning the number of
characters consumed. -/
def lastOctet (l : List Char) : Option Nat :=
  let d := digitRun l
  if 1 ≤ d ∧ d ≤ 3 ∧ noWordAfter l d = true then some d else Option.none

/-- Length of a match of `(?:[0-9]{1,3}\.){3}[0-9]{1,3}\b` at the front
of `l`, if any. -/
def matchLen (l : List Char) : Option Nat :=
  (groupStep l).bind (fun l1 =>
    (groupStep l1).bind (fun l2 =>
      (groupStep l2).bind (fun l3 =>
        (lastOctet l3).map (fun d => (l.length - l3.length) + d))))

/-- The leading `\b`: position 0, or a non-word character just before.
(The pattern itself then requires a word character at the position.) -/
def boundaryAt (s : List Char) (i : Nat) : Bool :=
  i == 0 || !(isWordChar (s.getD (i - 1) ' '))

/-- Try to match the anchored pattern at position `i`, returning the
matched token. -/
def tryAt (s : List Char) (i : Nat) : Option (List Char) :=
  if boundaryAt s i then (matchLen (s.drop i)).map (fun n => (s.drop i).take n)
  else Option.none

/-- `ip_pattern.search(line)`: try every position left to right and
return the leftmost match. -/
def reSearch (s : List Char) : Option (List Char) :=
  (List.range s.length).findSome? (tryAt s)

/-- The generator `load_ips_from_log` over the file's lines: yields the
first match of each line in line order, and counts the total lines and
the matched lines (`total_lines`, `valid_ips_count`). -/
def load_ips_from_log : List (List Char) → List (List Char) × Nat × Nat
  | [] => ([], 0, 0)
  | line :: rest =>
    let r := load_ips_from_log rest
    match reSearch line with
    | some tok => (tok :: r.1, r.2.1 + 1, r.2.2 + 1)
    | Option.none => (r.1, r.2.1 + 1, r.2.2)

/-- The claim's pattern read literally from its words — "one to three
digits, dot, repeated three times, one to three digits" — with no
word-boundary anchors: the trailing octet greedily takes up to three
digits of the run. -/
def bareLastOctet (l : List Char) : Option Nat :=
  let d := digitRun l
  if 1 ≤ d then some (min d 3) else Option.none

/-- Length of a match of the bare (unanchored) pattern at the front. -/
def bareMatchLen (l : List Char) : Option Nat :=
  (groupStep l).bind (fun l1 =>
    (groupStep l1).bind (fun l2 =>
      (groupStep l2).bind (fun l3 =>
        (bareLastOctet l3).map (fun d => (l.length - l3.length) + d))))

/-- Leftmost match of the bare pattern, as the claim words it. -/
def specPatternSearch (s : List Char) : Option (List Char) :=
  (List.range s.length).findSome? (fun i =>
    (bareMatchLen (s.drop i)).map (fun n => (s.drop i).take n))

/-- A line on which the code's `\b`-anchored regex has no match but the
bare pattern of the claim matches `234.5.6.7`. -/
def cexLine : List Char := "1234.5.6.7".toList

/-- The bare-pattern match inside `cexLine`. -/
def cexToken : List Char := "234.5.6.7".toList

/-- Counterexample to C8: the code's regex carries `\b` word-boundary
anchors which the claim's pattern description omits; on the line
`1234.5.6.7` the code yields no token while the claim's pattern has the
match `234.5.6.7`. -/
theorem load_ips_pattern_counterexample :
    (load_ips_from_log [cexLine]).1 = [] ∧
    [cexLine].filterMap specPatternSearch = [cexToken] ∧
    (load_ips_from_log [cexLine]).1 ≠ [cexLine].filterMap specPatternSearch := by
  decide

/-- C8 amended: the log source yields, in line order, exactly one token
per line on which the word-boundary-anchored pattern matches — the
leftmost such match — and nothing for the other lines; it counts every
line and every matched line. -/
theorem load_ips_yields_first_matches (lines : List (List Char)) :
    (load_ips_from_log lines).1 = lines.filterMap reSearch ∧
    (load_ips_from_log lines).2.1 = lines.length ∧
    (load_ips_from_log lines).2.2 = (lines.filterMap reSearch).length := by
  induction lines with
  | nil => exact ⟨rfl, rfl, rfl⟩
  | cons line rest ih =>
    obtain ⟨h1, h2, h3⟩ := ih
    cases h : reSearch line with
    | none => simp [load_ips_from_log, List.filterMap_cons, h, h1, h2, h3]
    | some tok => simp [load_ips_from_log, List.filterMap_cons, h, h1, h2, h3]

/-! ### The cardinality estimator (C7)

`performance_comparison.py` delegates cardinality estimation to the
external `hyperloglog` dependency, whose code is not part of the
repository sources; the estimator below is therefore modelled from the
spec (section 4.2) rather than translated from source code.
-/

/-- Modelled from the spec: the missing `CardinalityEstimator` state — a
precision `p` and `m = 2^p` small registers (the `hyperloglog.HyperLogLog`
object constructed by `approx_count_unique_ips_hll` is external to the
sources). -/
structure CardinalityEstimator where
  p : Nat
  registers : List Nat
  deriving Repr

/-- Modelled from the spec: the constructor derives a precision `p` from
the requested error rate (`1.04 / sqrt 2^p ≈ error_rate`) and allocates
`m = 2^p` registers initialised to 0; the model is parametrised directly
by the derived `p`, covering every error rate. -/
def CardinalityEstimator.init (p : Nat) : CardinalityEstimator :=
  ⟨p, List.replicate (2 ^ p) 0⟩

/-- The register count `m`. -/
def CardinalityEstimator.m (e : CardinalityEstimator) : Nat :=
  e.registers.length

/-- Modelled from the spec: the bias-correction constant `α_m` —
`0.7213 / (1 + 1.079 / m)` for large `m`, the documented small-`m`
constants otherwise. -/
def alphaQ (m : Nat) : ℚ :=
  if m ≤ 16 then 0.673
  else if m ≤ 32 then 0.697
  else if m ≤ 64 then 0.709
  else 0.7213 / (1 + 1.079 / (m : ℚ))

/-- Modelled from the spec: the raw HyperLogLog estimate
`α_m · m² / Σ 2^(−registers[j])`, in exact rational arithmetic. -/
def rawE (e : CardinalityEstimator) : ℚ :=
  alphaQ e.m * (e.m : ℚ) ^ 2 /
    ((e.registers.map (fun r => ((1 : ℚ) / 2) ^ r)).sum)

/-- The number of zero-valued registers (`V`). -/
def zeroCount (e : CardinalityEstimator) : Nat :=
  e.registers.count 0

/-- Modelled from the spec: `estimate()` — the raw estimate with the
small-range linear-counting correction (`E ≤ 2.5·m` and some register
zero ⇒ `m · ln (m / V)`) and the 32-bit large-range correction
(`E > 2^32/30` ⇒ `−2^32 · ln (1 − E/2^32)`). -/
noncomputable def CardinalityEstimator.estimate (e : CardinalityEstimator) : ℝ :=
  if rawE e ≤ 5 / 2 * (e.m : ℚ) ∧ 0 < zeroCount e then
    (e.m : ℝ) * Real.log ((e.m : ℝ) / (zeroCount e : ℝ))
  else if rawE e > 4294967296 / 30 then
    -4294967296 * Real.log (1 - (rawE e : ℝ) / 4294967296)
  else (rawE e : ℝ)

lemma alphaQ_le (m : Nat) : alphaQ m ≤ 5 / 2 := by
  unfold alphaQ
  split_ifs with h1 h2 h3
  · norm_num
  · norm_num
  · norm_num
  · have hden : (1 : ℚ) ≤ 1 + 1.079 / (m : ℚ) := by
      have h0 : (0 : ℚ) ≤ 1.079 / (m : ℚ) := by positivity
      linarith
    have := div_le_self (by norm_num : (0 : ℚ) ≤ 0.7213) hden
    linarith

/-- C7: a freshly constructed estimator, with no `add` calls, returns
`estimate() = 0`: all registers are zero, the raw estimate `α_m · m` is in
the small range, and linear counting gives `m · ln (m / m) = 0`. -/
theorem estimator_fresh_estimate_zero (p : Nat) :
    (CardinalityEstimator.init p).estimate = 0 := by
  have hm : (CardinalityEstimator.init p).m = 2 ^ p := by
    simp [CardinalityEstimator.init, CardinalityEstimator.m]
  have hV : zeroCount (CardinalityEstimator.init p) = 2 ^ p := by
    simp [zeroCount, CardinalityEstimator.init]
  have hmQ : ((2 : ℚ) ^ p) ≠ 0 := by positivity
  have hsum : (((CardinalityEstimator.init p).registers.map
      (fun r => ((1 : ℚ) / 2) ^ r)).sum) = (2 ^ p : ℚ) := by
    simp [CardinalityEstimator.init, List.map_replicate, List.sum_replicate]
  have hraw : rawE (CardinalityEstimator.init p) = alphaQ (2 ^ p) * (2 ^ p : ℚ) := by
    unfold rawE
    rw [hm, hsum, sq]
    push_cast
    rw [mul_div_assoc, mul_div_cancel_right₀ _ hmQ]
  have hcond : rawE (CardinalityEstimator.init p) ≤
      5 / 2 * (((CardinalityEstimator.init p).m : ℕ) : ℚ) ∧
      0 < zeroCount (CardinalityEstimator.init p) := by
    constructor
    · rw [hraw, hm]
      push_cast
      exact mul_le_mul_of_nonneg_right (alphaQ_le (2 ^ p)) (by positivity)
    · rw [hV]
      positivity
  unfold CardinalityEstimator.estimate
  rw [if_pos hcond, hm, hV]
  have hR : ((2 ^ p : ℕ) : ℝ) ≠ 0 := by positivity
  rw [div_self hR, Real.log_one, mul_zero]
